import Mathlib

set_option maxHeartbeats 1000000

/- Verification of the GMeet-Attendance content script (src/content.js).

   The development shallowly embeds the two logical components of the
   script: the candidate extractor (processNode / parseCandidateNode)
   and the attendance ledger (recordAttendance, startAttendance,
   stopAttendance, restartAttendance, getStatus, generateCSV).

   Strings are modelled as Lean `String` (lists of characters); all
   text in play is ASCII, where JavaScript UTF-16 code-unit indexing,
   `String.prototype.length` and Lean character counting agree.  DOM
   nodes are abstracted to their `innerText` contents: a leaf fragment
   text plus the ordered list of ancestor fragment texts (closest
   first), as in spec section 4.1. -/

/-! ## The email regular expression

The script's pattern (line 36 of content.js) is
`([a-zA-Z0-9._%+-]+@[a-zA-Z0-9.-]+\.[a-zA-Z]{2,})`.
We embed the JavaScript backtracking search for the first match.
The character classes: -/

/-- Class `[a-zA-Z0-9._%+-]` (local part). `Char.isAlpha` and
`Char.isDigit` cover exactly the ASCII ranges of the regex. -/
def isLocalChar (c : Char) : Bool :=
  c.isAlpha || c.isDigit || c == '.' || c == '_' || c == '%' || c == '+' || c == '-'

/-- Class `[a-zA-Z0-9.-]` (domain). -/
def isDomainChar (c : Char) : Bool :=
  c.isAlpha || c.isDigit || c == '.' || c == '-'

/- Derivation of the matcher from JavaScript backtracking semantics.

   At a fixed start position the engine runs `[a-zA-Z0-9._%+-]+`
   greedily.  Since `@` is not in the class, backtracking the `+` to a
   shorter run can never expose an `@`; hence the `@` must follow the
   maximal local run.  After the `@`, `[a-zA-Z0-9.-]+` consumes the
   maximal domain run `dom`; both `.` (the `\.`) and the TLD letters
   are themselves domain characters, so the rest of the match lies
   inside `dom`, and the first character after `dom` is not a domain
   character, hence neither a dot nor a letter.  Backtracking the
   domain `+` from longest to shortest therefore amounts to scanning
   `dom` for the rightmost dot that is followed (inside `dom`) by at
   least 2 letters; `[a-zA-Z]{2,}` is greedy and final, so the TLD is
   the maximal letter run after that dot.  The `+` requires at least
   one domain character before the dot, so the first character of
   `dom` is always part of the domain (see `domPart`). -/

/-- Backtracking search inside the maximal domain run (first character
already removed by `domPart`): try the rightmost viable dot first,
exactly as the greedy `[a-zA-Z0-9.-]+` backtracks from longest.
Returns the matched `pre ++ "." ++ tld` portion. -/
def domSplitAux : List Char → Option (List Char)
  | [] => none
  | c :: rest =>
    match domSplitAux rest with
    | some m => some (c :: m)
    | none =>
      if c = '.' then
        let tld := rest.takeWhile Char.isAlpha
        if 2 ≤ tld.length then some (c :: tld) else none
      else none

/-- Match `[a-zA-Z0-9.-]+\.[a-zA-Z]{2,}` at the head of `rest`. -/
def domPart (rest : List Char) : Option (List Char) :=
  match rest.takeWhile isDomainChar with
  | [] => none
  | c :: drest => (domSplitAux drest).map (fun m => c :: m)

/-- Match `@` followed by the domain part. -/
def afterAt : List Char → Option (List Char)
  | [] => none
  | a :: rest => if a = '@' then (domPart rest).map (fun dm => a :: dm) else none

/-- Match the whole email pattern anchored at the head of `cs`,
returning the matched characters. -/
def matchAt (cs : List Char) : Option (List Char) :=
  if cs.takeWhile isLocalChar = [] then none
  else (afterAt (cs.dropWhile isLocalChar)).map (fun t => cs.takeWhile isLocalChar ++ t)

/-- Leftmost match: JavaScript tries every start position from the
left, taking the first position where the pattern matches. -/
def firstMatchAux : List Char → Option (List Char)
  | [] => none
  | c :: cs =>
    match matchAt (c :: cs) with
    | some m => some m
    | none => firstMatchAux cs

/-- `text.match(EMAIL_REGEX)`, returning the matched substring
(`emailMatch[0]`, which for this pattern equals `emailMatch[1]`). -/
def firstEmailMatch (s : String) : Option String :=
  (firstMatchAux s.data).map (fun l => String.mk l)

/-! ## JavaScript string primitives used by the script -/

/-- ASCII lower-casing, modelling `String.prototype.toLowerCase` on
the ASCII strings produced by the email regex. -/
def jsToLowerChar (c : Char) : Char :=
  if 65 ≤ c.toNat ∧ c.toNat ≤ 90 then Char.ofNat (c.toNat + 32) else c

/-- `s.toLowerCase()`. -/
def jsToLower (s : String) : String := String.mk (s.data.map jsToLowerChar)

/-- White space removed by `String.prototype.trim` (the common code
points; `trim` strips Unicode WhiteSpace and LineTerminator). -/
def isJsWhitespace (c : Char) : Bool :=
  c == ' ' || c == '\t' || c == '\n' || c == '\r' ||
  c.toNat == 11 || c.toNat == 12 || c.toNat == 160 ||
  c.toNat == 0x2028 || c.toNat == 0x2029 || c.toNat == 0xFEFF

/-- Drop a trailing run of characters satisfying `p`. -/
def dropTrailing (p : Char → Bool) (xs : List Char) : List Char :=
  (xs.reverse.dropWhile p).reverse

/-- `s.trim()` on character lists: strip the trailing white-space run,
then the leading one. -/
def trimList (xs : List Char) : List Char :=
  (dropTrailing isJsWhitespace xs).dropWhile isJsWhitespace

/-- `s.trim()`. -/
def jsTrim (s : String) : String := String.mk (trimList s.data)

/-- Remove the first occurrence of `pat`, as
`text.replace(pat, "")` does for a plain string pattern. -/
def removeFirst (pat : List Char) : List Char → List Char
  | [] => []
  | c :: cs =>
    if pat.isPrefixOf (c :: cs) then (c :: cs).drop pat.length
    else c :: removeFirst pat cs

/-- `text.replace(pat, "")` with a string pattern. -/
def removeFirstStr (text pat : String) : String :=
  String.mk (removeFirst pat.data text.data)

/-- Substring test, as `hay.includes(pat)`. -/
def isSubstring (pat : List Char) : List Char → Bool
  | [] => pat.isEmpty
  | c :: cs => pat.isPrefixOf (c :: cs) || isSubstring pat cs

/-- `hay.includes(pat)`. -/
def containsStr (hay pat : String) : Bool := isSubstring pat.data hay.data

/-- Separator characters of the clean-up regex `/^[-:;,|]+|[-:;,|]+$/g`
(content.js line 109). -/
def isSepChar (c : Char) : Bool :=
  c == '-' || c == ':' || c == ';' || c == ',' || c == '|'

/-- `nameRaw.replace(/^[-:;,|]+|[-:;,|]+$/g, "")`: the alternation,
applied globally, removes exactly the leading separator run and the
trailing separator run. -/
def stripSeps (s : String) : String :=
  String.mk (dropTrailing isSepChar (s.data.dropWhile isSepChar))

/-- `email.split('@')[0]`: the characters before the first `@`. -/
def localPart (s : String) : String :=
  String.mk (s.data.takeWhile (fun c => !(c == '@')))

/-! ## The candidate extractor

`extract text ancestors` embeds `processNode` + `parseCandidateNode`
(content.js lines 60-118), with the DOM parent chain abstracted as the
ordered list of ancestor fragment texts, closest first (spec section
4.1). -/

/-- The ancestor-widening loop of `parseCandidateNode` (lines 88-105).
`email` is the lower-cased matched email (checked with `includes`),
`matched` is the raw matched substring `emailMatch[0]` (removed with
`replace`).  An adopted name longer than 2 characters breaks the
loop. -/
def widen (email matched : String) : String → List String → String
  | nameRaw, [] => nameRaw
  | nameRaw, a :: rest =>
    if containsStr a email then
      let potential := jsTrim (removeFirstStr a matched)
      if nameRaw.length < potential.length then
        if 2 < potential.length then potential
        else widen email matched potential rest
      else widen email matched nameRaw rest
    else widen email matched nameRaw rest

/-- `extract(fragmentText, ancestorTexts)`: the full extractor.  The
loop `for (let i = 0; i < 3 && current; i++)` visits the first three
ancestors, hence `ancestors.take 3`. -/
def extract (text : String) (ancestors : List String) : Option (String × String) :=
  match firstEmailMatch text with
  | none => none
  | some m =>
    let email := jsToLower m
    let nameRaw0 := jsTrim (removeFirstStr text m)
    let nameRaw1 :=
      if nameRaw0.length < 2 then widen email m nameRaw0 (ancestors.take 3)
      else nameRaw0
    let nameRaw2 := jsTrim (stripSeps nameRaw1)
    let name := if nameRaw2 = "" then localPart email else nameRaw2
    some (name, email)

/-! ## The attendance ledger -/

/-- A clock reading, as decomposed by the `Date` accessors the script
uses.  `monthIndex` is 0-based (`getMonth`), `epochMs` is
`getTime()`. -/
structure DateTime where
  day : Nat
  monthIndex : Nat
  year : Nat
  hours : Nat
  minutes : Nat
  epochMs : Nat
deriving DecidableEq

/-- A stored attendance record (the object built in
`recordAttendance`, lines 136-142). -/
structure AttendanceRecord where
  name : String
  email : String
  time : String
  date : String
  timestamp : Nat
deriving DecidableEq

/-- The persistent state `window.gmeetState` (the `observer` handle is
an external resource and is not part of the data model). -/
structure GmeetState where
  attendanceMap : List (String × AttendanceRecord)
  isRunning : Bool
  startTimestamp : Option Nat
  meetingName : String
deriving DecidableEq

/-- The snapshot returned by `getStatus`. -/
structure StatusSnapshot where
  isRunning : Bool
  count : Nat
  meetingName : String
  sessionStarted : Bool
deriving DecidableEq

/-- `String(n).padStart(2, '0')`. -/
def pad2 (n : Nat) : String :=
  if (toString n).length < 2 then "0" ++ toString n else toString n

/-- The `DD/MM/YYYY` date string of `recordAttendance`
(lines 127-130); `getMonth() + 1`. -/
def formatDate (dt : DateTime) : String :=
  pad2 dt.day ++ "/" ++ pad2 (dt.monthIndex + 1) ++ "/" ++ toString dt.year

/-- 12-hour clock value: `hours % 12 || 12`. -/
def hour12 (h : Nat) : Nat := if h % 12 = 0 then 12 else h % 12

/-- `now.toLocaleTimeString([], {hour: '2-digit', minute: '2-digit',
hour12: true})`, modelled for an `en-US`-style locale as
`hh:mm AM/PM`. -/
def formatTimeLocale (dt : DateTime) : String :=
  pad2 (hour12 dt.hours) ++ ":" ++ pad2 dt.minutes ++ " " ++
    (if 12 ≤ dt.hours then "PM" else "AM")

/-- `state.attendanceMap.get(k)` (first — and by the `Map` invariant
only — entry with key `k`). -/
def mapGet (m : List (String × AttendanceRecord)) (k : String) : Option AttendanceRecord :=
  match m with
  | [] => none
  | p :: rest => if p.1 = k then some p.2 else mapGet rest k

/-- `state.attendanceMap.has(k)`. -/
def hasKey (m : List (String × AttendanceRecord)) (k : String) : Bool :=
  match m with
  | [] => false
  | p :: rest => p.1 = k || hasKey rest k

/-- Number of entries stored under key `k`. -/
def countKey (m : List (String × AttendanceRecord)) (k : String) : Nat :=
  match m with
  | [] => 0
  | p :: rest => (if p.1 = k then 1 else 0) + countKey rest k

/-- `state.attendanceMap.set(k, v)`: a JavaScript `Map` updates an
existing key in place (keeping its position in insertion order) and
otherwise appends the new entry at the end. -/
def mapSet (m : List (String × AttendanceRecord)) (k : String) (v : AttendanceRecord) :
    List (String × AttendanceRecord) :=
  if hasKey m k then m.map (fun p => if p.1 = k then (k, v) else p)
  else m ++ [(k, v)]

/-- `recordAttendance(name, email)` (lines 123-146), with the implicit
`new Date()` passed explicitly.  Note that the function stores the
`email` argument unchanged, both as the map key and in the record. -/
def recordAttendance (name email : String) (now : DateTime) (st : GmeetState) : GmeetState :=
  { st with
    attendanceMap := mapSet st.attendanceMap email
      { name := name
        email := email
        time := formatTimeLocale now
        date := formatDate now
        timestamp := now.epochMs } }

/-- `getStatus()` (lines 191-198). -/
def getStatus (st : GmeetState) : StatusSnapshot :=
  { isRunning := st.isRunning
    count := st.attendanceMap.length
    meetingName := st.meetingName
    sessionStarted := st.startTimestamp.isSome }

/-- Truthiness of the optional `name` argument: `if (name)` is taken
for a present, non-empty string. -/
def jsTruthy : Option String → Bool
  | none => false
  | some s => !(s == "")

/-- `startAttendance(name)` (lines 150-171), with `Date.now()` passed
explicitly; the `MutationObserver` wiring is an external effect and
does not touch the modelled state. -/
def startAttendance (name : Option String) (nowMs : Nat) (st : GmeetState) :
    GmeetState × StatusSnapshot :=
  if st.isRunning then (st, getStatus st)
  else
    let st1 := if jsTruthy name then { st with meetingName := name.getD "" } else st
    let st2 := { st1 with isRunning := true }
    let st3 :=
      if st2.startTimestamp.isNone then { st2 with startTimestamp := some nowMs }
      else st2
    (st3, getStatus st3)

/-- `stopAttendance()` (lines 173-180); disconnecting the observer is
external. -/
def stopAttendance (st : GmeetState) : GmeetState × StatusSnapshot :=
  let st' := { st with isRunning := false }
  (st', getStatus st')

/-- `restartAttendance()` (lines 182-189). -/
def restartAttendance (st : GmeetState) : GmeetState × StatusSnapshot :=
  let st1 := (stopAttendance st).1
  let st2 := { st1 with attendanceMap := [], meetingName := "", startTimestamp := none }
  (st2, getStatus st2)

/-- CSV escaping applied to the name field:
`r.name.replace(/"/g, '""')`. -/
def escapeQuotes (s : String) : String :=
  String.mk (s.data.foldr (fun c acc => if c = '"' then '"' :: '"' :: acc else c :: acc) [])

/-- Characters kept by the filename sanitizer (class `[a-zA-Z0-9-_ ]`). -/
def isFileSafeChar (c : Char) : Bool :=
  c.isAlpha || c.isDigit || c == '-' || c == '_' || c == ' '

/-- `meetingName.replace(/[^a-zA-Z0-9-_ ]/g, "_")`. -/
def sanitizeName (s : String) : String :=
  String.mk (s.data.map (fun c => if isFileSafeChar c then c else '_'))

/-- The result object of `generateCSV` (lines 232-236). -/
structure CSVResult where
  csvContent : String
  filename : String
  status : StatusSnapshot
deriving DecidableEq

/-- `generateCSV(providedName)` (lines 200-237), with the implicit
`new Date()` passed explicitly.  `providedName || state.meetingName`
falls through on a missing or empty argument. -/
def generateCSV (providedName : Option String) (now : DateTime) (st : GmeetState) : CSVResult :=
  let meetingName :=
    match providedName with
    | some s => if s = "" then st.meetingName else s
    | none => st.meetingName
  let rows := st.attendanceMap.map (fun p =>
    String.intercalate ","
      ["\"" ++ escapeQuotes p.2.name ++ "\"", "\"" ++ p.2.email ++ "\"", p.2.time, p.2.date])
  let csvContent := String.intercalate "\n" (String.intercalate "," ["Name", "Email", "Time", "Date"] :: rows)
  let d := pad2 now.day
  let m := pad2 (now.monthIndex + 1)
  let y := toString now.year
  let ampm := if 12 ≤ now.hours then "PM" else "AM"
  let timeStr := pad2 (hour12 now.hours) ++ "-" ++ pad2 now.minutes ++ "-" ++ ampm
  let filename :=
    (if meetingName = "" then "" else sanitizeName meetingName ++ "_") ++
      d ++ "-" ++ m ++ "-" ++ y ++ "_" ++ timeStr ++ ".csv"
  { csvContent := csvContent
    filename := filename
    status := getStatus st }

/-! ## Basic list lemmas for runs of characters -/

theorem takeWhile_append_not (p : Char → Bool) (b : Char) (hb : p b = false) :
    ∀ xs ys : List Char, (xs ++ b :: ys).takeWhile p = xs.takeWhile p := by
  intro xs ys
  induction xs with
  | nil => simp [List.takeWhile, hb]
  | cons x xs ih => simp [List.takeWhile]; cases p x <;> simp [ih]

theorem dropWhile_append_not (p : Char → Bool) (b : Char) (hb : p b = false) :
    ∀ xs ys : List Char, (xs ++ b :: ys).dropWhile p = xs.dropWhile p ++ b :: ys := by
  intro xs ys
  induction xs with
  | nil => simp [List.dropWhile, hb]
  | cons x xs ih => simp [List.dropWhile]; cases p x <;> simp [ih]

theorem takeWhile_of_all (p : Char → Bool) :
    ∀ xs : List Char, xs.all p = true → xs.takeWhile p = xs := by
  intro xs h
  induction xs with
  | nil => rfl
  | cons x xs ih =>
    simp only [List.all_cons, Bool.and_eq_true] at h
    simp [List.takeWhile, h.1, ih h.2]

theorem dropWhile_of_all (p : Char → Bool) :
    ∀ xs : List Char, xs.all p = true → xs.dropWhile p = [] := by
  intro xs h
  induction xs with
  | nil => rfl
  | cons x xs ih =>
    simp only [List.all_cons, Bool.and_eq_true] at h
    simp [List.dropWhile, h.1, ih h.2]

theorem takeWhile_append_of_all (p : Char → Bool) :
    ∀ xs ys : List Char, xs.all p = true → (xs ++ ys).takeWhile p = xs ++ ys.takeWhile p := by
  intro xs ys h
  induction xs with
  | nil => rfl
  | cons x xs ih =>
    simp only [List.all_cons, Bool.and_eq_true] at h
    simp [List.takeWhile, h.1, ih h.2]

theorem length_takeWhile_append_le (p : Char → Bool) :
    ∀ xs ys : List Char, (xs.takeWhile p).length ≤ ((xs ++ ys).takeWhile p).length := by
  intro xs ys
  induction xs with
  | nil => simp
  | cons x xs ih => simp [List.takeWhile]; cases p x <;> simp [ih]

theorem all_takeWhile (p : Char → Bool) : ∀ xs : List Char, (xs.takeWhile p).all p = true := by
  intro xs
  induction xs with
  | nil => rfl
  | cons x xs ih =>
    simp only [List.takeWhile]
    cases hx : p x <;> simp [hx, ih]

theorem isPrefixOf_eq_true_iff (l1 l2 : List Char) :
    l1.isPrefixOf l2 = true ↔ ∃ t, l2 = l1 ++ t := by
  induction l1 generalizing l2 with
  | nil => simp [List.isPrefixOf]
  | cons a as ih =>
    cases l2 with
    | nil => simp [List.isPrefixOf]
    | cons b bs =>
      simp only [List.isPrefixOf, Bool.and_eq_true, beq_iff_eq, ih, List.cons_append,
        List.cons.injEq]
      constructor
      · rintro ⟨rfl, t, rfl⟩; exact ⟨t, rfl, rfl⟩
      · rintro ⟨t, rfl, rfl⟩; exact ⟨rfl, t, rfl⟩

theorem isPrefixOf_self_append (l t : List Char) : l.isPrefixOf (l ++ t) = true :=
  (isPrefixOf_eq_true_iff l (l ++ t)).mpr ⟨t, rfl⟩

/-! ## Structure of the matcher

Facts used to locate the first match in a text of the form
`name ++ " " ++ email`: no match contains a space, matching is not
affected by text beyond a space, and a successful whole-string match
survives appending more text. -/

theorem space_not_local : isLocalChar ' ' = false := by decide

theorem space_not_domain : isDomainChar ' ' = false := by decide

theorem space_ne_at : (' ' = '@') = False := by simp

theorem domPart_append_space (xs ys : List Char) :
    domPart (xs ++ ' ' :: ys) = domPart xs := by
  unfold domPart
  rw [takeWhile_append_not isDomainChar ' ' space_not_domain]

theorem afterAt_append_space (xs ys : List Char) :
    afterAt (xs ++ ' ' :: ys) = afterAt xs := by
  cases xs with
  | nil => simp [afterAt]
  | cons a rest =>
    simp only [List.cons_append, afterAt]
    rw [domPart_append_space]

theorem matchAt_append_space (xs ys : List Char) :
    matchAt (xs ++ ' ' :: ys) = matchAt xs := by
  unfold matchAt
  rw [takeWhile_append_not isLocalChar ' ' space_not_local,
    dropWhile_append_not isLocalChar ' ' space_not_local,
    afterAt_append_space]

theorem matchAt_nil : matchAt [] = none := rfl

theorem firstMatchAux_none_elim (suf : List Char) :
    ∀ pre, firstMatchAux (pre ++ suf) = none → matchAt suf = none := by
  intro pre
  induction pre with
  | nil =>
    intro h
    cases suf with
    | nil => exact matchAt_nil
    | cons c cs =>
      simp only [List.nil_append, firstMatchAux] at h
      cases hm : matchAt (c :: cs) with
      | none => rfl
      | some m => rw [hm] at h; exact absurd h (by simp)
  | cons p pre ih =>
    intro h
    simp only [List.cons_append, firstMatchAux, List.append_eq] at h
    cases hm : matchAt (p :: (pre ++ suf)) with
    | none => rw [hm] at h; exact ih h
    | some m => rw [hm] at h; exact absurd h (by simp)

theorem firstMatchAux_append_space (xs ys : List Char)
    (h : firstMatchAux xs = none) :
    firstMatchAux (xs ++ ' ' :: ys) = firstMatchAux ys := by
  induction xs with
  | nil =>
    simp only [List.nil_append, firstMatchAux]
    have : matchAt (' ' :: ys) = none := by
      have := matchAt_append_space [] ys
      simpa using this
    rw [this]
  | cons x xs ih =>
    simp only [firstMatchAux] at h
    cases hm : matchAt (x :: xs) with
    | some m => rw [hm] at h; exact absurd h (by simp)
    | none =>
      rw [hm] at h
      simp only [List.cons_append, firstMatchAux, List.append_eq]
      have hx : matchAt (x :: (xs ++ ' ' :: ys)) = none := by
        have := matchAt_append_space (x :: xs) ys
        simp only [List.cons_append] at this
        rw [this, hm]
      rw [hx]
      exact ih h

/-! ## Decomposition of a successful match -/

theorem domSplitAux_sub (xs m : List Char) (h : domSplitAux xs = some m) :
    ∃ t, xs = m ++ t := by
  induction xs generalizing m with
  | nil => exact absurd h (by simp [domSplitAux])
  | cons c rest ih =>
    simp only [domSplitAux] at h
    cases hr : domSplitAux rest with
    | some m' =>
      rw [hr] at h
      obtain ⟨t, ht⟩ := ih m' hr
      simp only [Option.some.injEq] at h
      exact ⟨t, by simp [← h, ht]⟩
    | none =>
      rw [hr] at h
      by_cases hc : c = '.'
      · simp only [hc, if_pos rfl] at h
        by_cases hl : 2 ≤ (rest.takeWhile Char.isAlpha).length
        · simp only [hl, if_true, Option.some.injEq] at h
          refine ⟨rest.dropWhile Char.isAlpha, ?_⟩
          rw [← h]
          simp [hc, List.takeWhile_append_dropWhile]
        · simp [if_neg hl] at h
      · simp [if_neg hc] at h

theorem domPart_sub (xs dm : List Char) (h : domPart xs = some dm) :
    ∃ t, xs = dm ++ t := by
  unfold domPart at h
  cases htw : xs.takeWhile isDomainChar with
  | nil => rw [htw] at h; exact absurd h (by simp)
  | cons c drest =>
    rw [htw] at h
    simp only [Option.map_eq_some'] at h
    obtain ⟨ms, hms, rfl⟩ := h
    obtain ⟨t, ht⟩ := domSplitAux_sub drest ms hms
    refine ⟨t ++ xs.dropWhile isDomainChar, ?_⟩
    conv_lhs => rw [← List.takeWhile_append_dropWhile (p := isDomainChar) (l := xs)]
    rw [htw, ht]
    simp

theorem afterAt_sub (xs t0 : List Char) (h : afterAt xs = some t0) :
    ∃ r, xs = t0 ++ r := by
  cases xs with
  | nil => exact absurd h (by simp [afterAt])
  | cons a rest =>
    simp only [afterAt] at h
    by_cases ha : a = '@'
    · rw [if_pos ha] at h
      cases hdp : domPart rest with
      | none => rw [hdp] at h; exact absurd h (by simp)
      | some dm =>
        rw [hdp] at h
        simp at h
        obtain ⟨r, hr⟩ := domPart_sub rest dm hdp
        exact ⟨r, by simp [ha, hr, ← h]⟩
    · simp [if_neg ha] at h

theorem matchAt_sub (cs m : List Char) (h : matchAt cs = some m) :
    ∃ t, cs = m ++ t := by
  unfold matchAt at h
  by_cases hlp : cs.takeWhile isLocalChar = []
  · simp [hlp] at h
  · simp only [if_neg hlp, Option.map_eq_some'] at h
    obtain ⟨t0, ht0, rfl⟩ := h
    obtain ⟨r, hr⟩ := afterAt_sub _ t0 ht0
    refine ⟨r, ?_⟩
    conv_lhs => rw [← List.takeWhile_append_dropWhile (p := isLocalChar) (l := cs)]
    rw [hr]
    simp

theorem firstMatchAux_decomp (xs m : List Char) (h : firstMatchAux xs = some m) :
    ∃ pre suf, xs = pre ++ suf ∧ matchAt suf = some m := by
  induction xs with
  | nil => exact absurd h (by simp [firstMatchAux])
  | cons c cs ih =>
    simp only [firstMatchAux] at h
    cases hm : matchAt (c :: cs) with
    | some m' =>
      rw [hm] at h
      simp only [Option.some.injEq] at h
      exact ⟨[], c :: cs, rfl, by rw [hm, h]⟩
    | none =>
      rw [hm] at h
      obtain ⟨pre, suf, hps, hsuf⟩ := ih h
      exact ⟨c :: pre, suf, by simp [hps], hsuf⟩

theorem whole_match_at_head (xs : List Char) (h : firstMatchAux xs = some xs) :
    matchAt xs = some xs := by
  obtain ⟨pre, suf, hps, hsuf⟩ := firstMatchAux_decomp xs xs h
  obtain ⟨t, ht⟩ := matchAt_sub suf xs hsuf
  have hlen : xs.length = pre.length + (xs.length + t.length) := by
    have := congrArg List.length hps
    simpa [ht] using this
  have hpre : pre = [] := List.length_eq_zero.mp (by omega)
  have ht0 : t = [] := List.length_eq_zero.mp (by omega)
  rw [hpre, List.nil_append] at hps
  rw [← hps] at hsuf
  exact hsuf

/-! ## A whole-string match: structure and stability under extension -/

theorem length_takeWhile_self_le (p : Char → Bool) :
    ∀ xs : List Char, (xs.takeWhile p).length ≤ xs.length := by
  intro xs
  induction xs with
  | nil => simp
  | cons x xs ih =>
    simp [List.takeWhile]
    cases p x <;> simp
    omega

theorem matchAt_self_decomp (E : List Char) (h : matchAt E = some E) :
    ∃ lp c ms, E = lp ++ '@' :: c :: ms ∧ lp ≠ [] ∧ lp.all isLocalChar = true ∧
      isDomainChar c = true ∧ ms.all isDomainChar = true ∧ domSplitAux ms = some ms := by
  unfold matchAt at h
  by_cases hlp : E.takeWhile isLocalChar = []
  · simp [hlp] at h
  · simp only [if_neg hlp, Option.map_eq_some'] at h
    obtain ⟨t0, ht0, hE⟩ := h
    have hdw : t0 = E.dropWhile isLocalChar :=
      List.append_cancel_left
        (hE.trans (List.takeWhile_append_dropWhile (p := isLocalChar) (l := E)).symm)
    rw [hdw] at ht0
    cases hD : E.dropWhile isLocalChar with
    | nil => rw [hD] at ht0; exact absurd ht0 (by simp [afterAt])
    | cons a rest =>
      rw [hD] at ht0
      simp only [afterAt] at ht0
      by_cases ha : a = '@'
      · rw [if_pos ha] at ht0
        cases hdp : domPart rest with
        | none => rw [hdp] at ht0; exact absurd ht0 (by simp)
        | some dm =>
          rw [hdp] at ht0
          simp at ht0
          -- ht0 : a :: dm = a :: rest, so dm = rest
          have hdm : dm = rest := by simpa using ht0
          rw [hdm] at hdp
          -- unfold domPart on rest
          unfold domPart at hdp
          cases htw : rest.takeWhile isDomainChar with
          | nil => rw [htw] at hdp; exact absurd hdp (by simp)
          | cons c drest =>
            rw [htw] at hdp
            simp only [Option.map_eq_some'] at hdp
            obtain ⟨ms, hms, hcm⟩ := hdp
            -- hcm : c :: ms = rest
            obtain ⟨t, ht⟩ := domSplitAux_sub drest ms hms
            rw [← hcm] at htw
            rw [List.takeWhile_cons] at htw
            by_cases hc : isDomainChar c = true
            · rw [if_pos hc] at htw
              simp only [List.cons.injEq, true_and] at htw
              -- htw : takeWhile ms = drest
              have hdr : drest = ms.takeWhile isDomainChar := htw.symm
              have hlen1 : ms.length + t.length = drest.length := by
                have := congrArg List.length ht
                simpa using this.symm
              have hlen2 : drest.length ≤ ms.length := by
                rw [hdr]; exact length_takeWhile_self_le isDomainChar ms
              have htnil : t = [] := List.length_eq_zero.mp (by omega)
              rw [htnil, List.append_nil] at ht
              -- ht : drest = ms
              have hmseq : ms.takeWhile isDomainChar = ms := by rw [← hdr, ht]
              have hmsall : ms.all isDomainChar = true := by
                have := all_takeWhile isDomainChar ms
                rwa [hmseq] at this
              rw [ht] at hms
              refine ⟨E.takeWhile isLocalChar, c, ms, ?_, hlp, all_takeWhile isLocalChar E, hc,
                hmsall, hms⟩
              conv_lhs => rw [← hE]
              rw [hdw, hD, ha, ← hcm]
            · simp only [Bool.not_eq_true] at hc
              rw [hc] at htw
              simp at htw
      · rw [if_neg ha] at ht0; exact absurd ht0 (by simp)

theorem match_no_space (E : List Char) (h : matchAt E = some E) : ' ' ∉ E := by
  obtain ⟨lp, c, ms, hE, _, hlpall, hc, hmsall, _⟩ := matchAt_self_decomp E h
  rw [hE]
  intro hmem
  rcases List.mem_append.mp hmem with hmem1 | hmem2
  · have := List.all_eq_true.mp hlpall _ hmem1
    simp [space_not_local] at this
  · rcases List.mem_cons.mp hmem2 with heq | hmem3
    · exact absurd heq (by decide)
    · rcases List.mem_cons.mp hmem3 with heq | hmem4
      · rw [← heq] at hc
        simp [space_not_domain] at hc
      · have := List.all_eq_true.mp hmsall _ hmem4
        simp [space_not_domain] at this

theorem domSplitAux_append (xs ys m : List Char) (h : domSplitAux xs = some m) :
    (domSplitAux (xs ++ ys)).isSome = true := by
  induction xs generalizing m with
  | nil => exact absurd h (by simp [domSplitAux])
  | cons c rest ih =>
    simp only [List.cons_append, domSplitAux]
    cases hr2 : domSplitAux (rest ++ ys) with
    | some m2 => simp
    | none =>
      simp only [domSplitAux] at h
      cases hr : domSplitAux rest with
      | some m' =>
        have := ih m' hr
        rw [hr2] at this
        simp at this
      | none =>
        rw [hr] at h
        by_cases hc : c = '.'
        · rw [if_pos hc] at h
          by_cases hl : 2 ≤ (rest.takeWhile Char.isAlpha).length
          · have hl2 : 2 ≤ ((rest ++ ys).takeWhile Char.isAlpha).length :=
              le_trans hl (length_takeWhile_append_le Char.isAlpha rest ys)
            simp [hc, hl2]
          · simp only [hl, if_false] at h
            simp at h
        · simp only [hc, if_false] at h
          simp at h

theorem matchAt_self_extends (E tail : List Char) (h : matchAt E = some E) :
    (matchAt (E ++ tail)).isSome = true := by
  obtain ⟨lp, c, ms, hE, hlp0, hlpall, hc, hmsall, hsplit⟩ := matchAt_self_decomp E h
  have hshape : E ++ tail = lp ++ '@' :: (c :: (ms ++ tail)) := by
    rw [hE]; simp
  rw [hshape]
  have h1 : (lp ++ '@' :: (c :: (ms ++ tail))).takeWhile isLocalChar = lp := by
    rw [takeWhile_append_not isLocalChar '@' (by decide), takeWhile_of_all isLocalChar lp hlpall]
  have h2 : (lp ++ '@' :: (c :: (ms ++ tail))).dropWhile isLocalChar = '@' :: (c :: (ms ++ tail)) := by
    rw [dropWhile_append_not isLocalChar '@' (by decide), dropWhile_of_all isLocalChar lp hlpall,
      List.nil_append]
  unfold matchAt
  rw [h1, h2, if_neg hlp0]
  have h3 : (c :: (ms ++ tail)).takeWhile isDomainChar =
      c :: (ms ++ tail.takeWhile isDomainChar) := by
    rw [List.takeWhile_cons, if_pos hc, takeWhile_append_of_all isDomainChar ms _ hmsall]
  have h4 := domSplitAux_append ms (tail.takeWhile isDomainChar) ms hsplit
  cases hds : domSplitAux (ms ++ tail.takeWhile isDomainChar) with
  | none => rw [hds] at h4; simp at h4
  | some mm =>
    have h5 : domPart (c :: (ms ++ tail)) = some (c :: mm) := by
      unfold domPart
      rw [h3]
      simp [hds]
    have h6 : afterAt ('@' :: (c :: (ms ++ tail))) = some ('@' :: c :: mm) := by
      simp [afterAt, h5]
    rw [h6]
    simp

/-! ## Locating the email match in a text of the shape `name ++ " " ++ email` -/

theorem removeFirst_self (pat : List Char) : removeFirst pat pat = [] := by
  cases pat with
  | nil => rfl
  | cons p ps =>
    unfold removeFirst
    have hp : (p :: ps).isPrefixOf ((p :: ps) ++ []) = true := isPrefixOf_self_append _ []
    rw [List.append_nil] at hp
    rw [if_pos hp]
    exact List.drop_length _

theorem removeFirst_append_skip (pat rest : List Char) :
    ∀ xs : List Char,
      (∀ t ys, xs = t ++ ys → ys ≠ [] → pat.isPrefixOf (ys ++ rest) = false) →
      removeFirst pat (xs ++ rest) = xs ++ removeFirst pat rest := by
  intro xs
  induction xs with
  | nil => intro _; simp
  | cons c cs ih =>
    intro h
    have hc : pat.isPrefixOf ((c :: cs) ++ rest) = false := h [] (c :: cs) rfl (by simp)
    simp only [List.cons_append] at hc ⊢
    calc removeFirst pat (c :: (cs ++ rest))
        = if pat.isPrefixOf (c :: (cs ++ rest)) then (c :: (cs ++ rest)).drop pat.length
          else c :: removeFirst pat (cs ++ rest) := rfl
      _ = c :: removeFirst pat (cs ++ rest) := by rw [hc]; simp
      _ = c :: (cs ++ removeFirst pat rest) := by
          rw [ih (fun t ys hts hne => h (c :: t) ys (by rw [hts]; rfl) hne)]

theorem no_early_occurrence (N E : List Char)
    (hNfail : firstMatchAux N = none)
    (hmatch : matchAt E = some E) :
    ∀ t ys, N ++ [' '] = t ++ ys → ys ≠ [] → E.isPrefixOf (ys ++ E) = false := by
  intro t ys hsplit hne
  cases hb : E.isPrefixOf (ys ++ E) with
  | false => rfl
  | true =>
    exfalso
    obtain ⟨u, hu⟩ := (isPrefixOf_eq_true_iff _ _).mp hb
    -- decompose ys as zs ++ [' ']
    have hys : ys.dropLast ++ [ys.getLast hne] = ys := List.dropLast_append_getLast hne
    rw [← hys, ← List.append_assoc] at hsplit
    have hinj := List.append_inj' hsplit (by simp)
    have hN : N = t ++ ys.dropLast := hinj.1
    have hlast : ys.getLast hne = ' ' := by
      have := hinj.2
      simpa using this.symm
    set zs := ys.dropLast with hzs
    have hys2 : ys = zs ++ [' '] := by rw [hzs, ← hlast, hys]
    rw [hys2, List.append_assoc, List.singleton_append] at hu
    -- hu : zs ++ ' ' :: E = E ++ u
    by_cases hle : E.length ≤ zs.length
    · -- E would occur inside zs, a suffix of N: the matcher would succeed in N
      have htake : (E ++ u).take E.length = E := List.take_left ..
      rw [← hu] at htake
      rw [List.take_append_eq_append_take] at htake
      have hz1 : zs.take E.length = zs.take E.length := rfl
      have hz2 : (' ' :: E).take (E.length - zs.length) = [] := by
        have : E.length - zs.length = 0 := by omega
        rw [this]; rfl
      rw [hz2, List.append_nil] at htake
      -- htake : zs.take E.length = E
      have hzdecomp : zs = E ++ zs.drop E.length := by
        conv_lhs => rw [← List.take_append_drop E.length zs]
        rw [htake]
      have hsome := matchAt_self_extends E (zs.drop E.length) hmatch
      rw [← hzdecomp] at hsome
      have hnone : matchAt zs = none := firstMatchAux_none_elim zs t (by rw [← hN]; exact hNfail)
      rw [hnone] at hsome
      simp at hsome
    · -- the space inside the left side would have to be a character of E
      have hsp : ' ' ∈ E := by
        have htake : (E ++ u).take E.length = E := List.take_left ..
        rw [← hu, List.take_append_eq_append_take] at htake
        have hz1 : zs.take E.length = zs := List.take_of_length_le (by omega)
        cases hk : E.length - zs.length with
        | zero => omega
        | succ k =>
          rw [hz1, hk, List.take_succ_cons] at htake
          rw [← htake]
          exact List.mem_append_right _ (List.mem_cons_self _ _)
      exact match_no_space E hmatch hsp

theorem removeFirst_name_email (N E : List Char)
    (hNfail : firstMatchAux N = none)
    (hmatch : matchAt E = some E) :
    removeFirst E (N ++ ' ' :: E) = N ++ [' '] := by
  have hre : N ++ ' ' :: E = (N ++ [' ']) ++ E := by simp
  rw [hre, removeFirst_append_skip E E (N ++ [' ']) (no_early_occurrence N E hNfail hmatch),
    removeFirst_self, List.append_nil]

/-! ## Trimming -/

theorem trimList_append_space (xs : List Char) : trimList (xs ++ [' ']) = trimList xs := by
  unfold trimList dropTrailing
  have hrev : (xs ++ [' ']).reverse = ' ' :: xs.reverse := by simp
  rw [hrev, List.dropWhile_cons, if_pos (by decide : isJsWhitespace ' ' = true)]

/-! ## String-level glue -/

theorem strData_append (s t : String) : (s ++ t).data = s.data ++ t.data := by
  cases s; cases t; rfl

theorem strMk_data (s : String) : String.mk s.data = s := rfl

/-- The claim's notion of a valid email address: the code's regex
matches, and the first match is the whole string. -/
def validEmail (E : String) : Prop := firstEmailMatch E = some E

/-- No email-like substring: the code's regex finds no match. -/
def emailFree (N : String) : Prop := firstEmailMatch N = none

theorem validEmail_iff_list (E : String) :
    validEmail E ↔ firstMatchAux E.data = some E.data := by
  unfold validEmail firstEmailMatch
  cases fm : firstMatchAux E.data with
  | none => simp
  | some l =>
    simp only [Option.map_some', Option.some.injEq]
    constructor
    · intro h; rw [← h]
    · intro h; rw [h]

theorem emailFree_iff_list (N : String) :
    emailFree N ↔ firstMatchAux N.data = none := by
  unfold emailFree firstEmailMatch
  cases fm : firstMatchAux N.data with
  | none => simp
  | some l => simp

/-! ## Ledger map lemmas -/

theorem mapGet_map_update (k : String) (v : AttendanceRecord) :
    ∀ m, hasKey m k = true →
      mapGet (m.map (fun p => if p.1 = k then (k, v) else p)) k = some v := by
  intro m
  induction m with
  | nil => intro h; simp [hasKey] at h
  | cons p rest ih =>
    intro h
    by_cases hp : p.1 = k
    · simp [mapGet, hp]
    · simp only [List.map_cons, if_neg hp]
      simp only [mapGet, if_neg hp]
      apply ih
      simp [hasKey, hp] at h
      exact h

theorem mapGet_append_new (k : String) (v : AttendanceRecord) :
    ∀ m, hasKey m k = false → mapGet (m ++ [(k, v)]) k = some v := by
  intro m
  induction m with
  | nil => intro _; simp [mapGet]
  | cons p rest ih =>
    intro h
    simp only [hasKey, Bool.or_eq_false_iff] at h
    have hp : ¬ p.1 = k := by
      intro hk
      rw [hk] at h
      simp at h
    simp only [List.cons_append, mapGet, if_neg hp]
    exact ih (by simpa [hasKey] using h.2)

theorem mapGet_mapSet_self (m : List (String × AttendanceRecord)) (k : String)
    (v : AttendanceRecord) : mapGet (mapSet m k v) k = some v := by
  unfold mapSet
  by_cases h : hasKey m k = true
  · rw [if_pos h]
    exact mapGet_map_update k v m h
  · have h' : hasKey m k = false := by
      revert h; cases hasKey m k <;> simp
    rw [h']
    simp only [Bool.false_eq_true, if_false]
    exact mapGet_append_new k v m h'

theorem countKey_map_update (k : String) (v : AttendanceRecord) :
    ∀ m, countKey (m.map (fun p => if p.1 = k then (k, v) else p)) k = countKey m k := by
  intro m
  induction m with
  | nil => rfl
  | cons p rest ih =>
    by_cases hp : p.1 = k
    · simp [countKey, hp, ih]
    · simp [countKey, hp, ih]

theorem countKey_append (m1 m2 : List (String × AttendanceRecord)) (k : String) :
    countKey (m1 ++ m2) k = countKey m1 k + countKey m2 k := by
  induction m1 with
  | nil => simp [countKey]
  | cons p rest ih => simp [countKey, ih]; omega

theorem countKey_pos_of_hasKey (k : String) :
    ∀ m, hasKey m k = true → 1 ≤ countKey m k := by
  intro m
  induction m with
  | nil => intro h; simp [hasKey] at h
  | cons p rest ih =>
    intro h
    by_cases hp : p.1 = k
    · simp [countKey, hp]
    · simp only [hasKey, Bool.or_eq_true, decide_eq_true_eq] at h
      rcases h with h | h
      · exact absurd h hp
      · have := ih h
        simp [countKey, hp]
        omega

theorem countKey_zero_of_not_hasKey (k : String) :
    ∀ m, hasKey m k = false → countKey m k = 0 := by
  intro m
  induction m with
  | nil => intro _; rfl
  | cons p rest ih =>
    intro h
    simp only [hasKey, Bool.or_eq_false_iff] at h
    have hp : ¬ p.1 = k := by
      intro hk
      rw [hk] at h
      simp at h
    simp [countKey, hp, ih (by simpa [hasKey] using h.2)]

theorem countKey_mapSet_self (m : List (String × AttendanceRecord)) (k : String)
    (v : AttendanceRecord) (h : countKey m k ≤ 1) : countKey (mapSet m k v) k = 1 := by
  unfold mapSet
  by_cases hk : hasKey m k = true
  · rw [if_pos hk, countKey_map_update]
    have := countKey_pos_of_hasKey k m hk
    omega
  · have hk' : hasKey m k = false := by
      revert hk; cases hasKey m k <;> simp
    rw [hk']
    simp only [Bool.false_eq_true, if_false]
    rw [countKey_append, countKey_zero_of_not_hasKey k m hk']
    simp [countKey]

theorem mapGet_map_update_isSome (k : String) (v : AttendanceRecord) (e : String) :
    ∀ m, (mapGet m e).isSome = true →
      (mapGet (m.map (fun p => if p.1 = k then (k, v) else p)) e).isSome = true := by
  intro m
  induction m with
  | nil => intro h; simp [mapGet] at h
  | cons p rest ih =>
    intro h
    have hkey : (if p.1 = k then (k, v) else p).1 = p.1 := by
      by_cases hpk : p.1 = k
      · rw [if_pos hpk]; exact hpk.symm
      · rw [if_neg hpk]
    by_cases hp : p.1 = e
    · simp only [List.map_cons, mapGet]
      rw [hkey, if_pos hp]
      simp
    · simp only [mapGet, if_neg hp] at h
      simp only [List.map_cons, mapGet, hkey, if_neg hp]
      exact ih h

theorem mapGet_append_isSome (e : String) (entry : String × AttendanceRecord) :
    ∀ m, (mapGet m e).isSome = true → (mapGet (m ++ [entry]) e).isSome = true := by
  intro m
  induction m with
  | nil => intro h; simp [mapGet] at h
  | cons p rest ih =>
    intro h
    by_cases hp : p.1 = e
    · simp [mapGet, hp]
    · simp only [mapGet, if_neg hp] at h
      simp only [List.cons_append, mapGet, if_neg hp]
      exact ih h

theorem mapGet_mapSet_isSome (m : List (String × AttendanceRecord)) (k : String)
    (v : AttendanceRecord) (e : String) (h : (mapGet m e).isSome = true) :
    (mapGet (mapSet m k v) e).isSome = true := by
  unfold mapSet
  by_cases hk : hasKey m k = true
  · rw [if_pos hk]
    exact mapGet_map_update_isSome k v e m h
  · have hk' : hasKey m k = false := by
      revert hk; cases hasKey m k <;> simp
    rw [hk']
    simp only [Bool.false_eq_true, if_false]
    exact mapGet_append_isSome e (k, v) m h

/-! ## Ledger control helper lemmas -/

theorem start_of_running (name : Option String) (nowMs : Nat) (st : GmeetState)
    (h : st.isRunning = true) : startAttendance name nowMs st = (st, getStatus st) := by
  unfold startAttendance
  rw [if_pos h]

theorem start_isRunning (name : Option String) (nowMs : Nat) (st : GmeetState) :
    (startAttendance name nowMs st).1.isRunning = true := by
  unfold startAttendance
  by_cases h : st.isRunning = true
  · simp [h]
  · simp only [h, Bool.false_eq_true, if_false]
    by_cases h1 : jsTruthy name = true <;> by_cases h2 : (st.startTimestamp).isNone = true <;>
      simp [h1, h2]

/-! ## Claim-side definitions (written from the spec's words) -/

/-- The session name used for the export, per the claim: the provided
name when non-empty, otherwise the stored session name. -/
def claimSessionName (providedName : Option String) (st : GmeetState) : String :=
  match providedName with
  | some s => if s = "" then st.meetingName else s
  | none => st.meetingName

/-- The filename format stated by claim C8: the optional session name
with every character outside `[A-Za-z0-9-_ ]` replaced by an
underscore, followed by an underscore, then `DD-MM-YYYY_HH-MM-AMPM`
derived from the current wall-clock reading, then `.csv`; the name
part and its underscore are absent when the session name is empty. -/
def claimFilename (sessionName : String) (now : DateTime) : String :=
  (if sessionName = "" then ""
   else String.mk (sessionName.data.map (fun c => if isFileSafeChar c then c else '_')) ++ "_") ++
  pad2 now.day ++ "-" ++ pad2 (now.monthIndex + 1) ++ "-" ++ toString now.year ++ "_" ++
  pad2 (hour12 now.hours) ++ "-" ++ pad2 now.minutes ++ "-" ++
  (if 12 ≤ now.hours then "PM" else "AM") ++ ".csv"

/-- A clock reading used by the concrete counterexamples:
7 January 2026, 09:00. -/
def dtJan7 : DateTime := ⟨7, 0, 2026, 9, 0, 1767778800000⟩

/-- A later clock reading on the same day, 09:05. -/
def dtJan7b : DateTime := ⟨7, 0, 2026, 9, 5, 1767779100000⟩

/-- The empty ledger state. -/
def emptyState : GmeetState := ⟨[], false, none, ""⟩

/-! ## The claims -/

/-- C1: for every valid email `E` (the regex matches all of `E`) and
every name `N` of length at least 2 with no email-like substring, no
surrounding white space and no leading or trailing separator run,
extracting from the single fragment `N ++ " " ++ E` with an empty
ancestor list returns the name `N` together with the lower-cased
email. -/
theorem C1_extract_name_space_email (N E : String)
    (hE : validEmail E)
    (hN : emailFree N)
    (hlen : 2 ≤ N.length)
    (htrim : jsTrim N = N)
    (hsep : stripSeps N = N) :
    extract (N ++ " " ++ E) [] = some (N, jsToLower E) := by
  have hEl : firstMatchAux E.data = some E.data := (validEmail_iff_list E).mp hE
  have hNl : firstMatchAux N.data = none := (emailFree_iff_list N).mp hN
  have hdata : (N ++ " " ++ E).data = N.data ++ ' ' :: E.data := by
    rw [strData_append, strData_append]
    simp
  have hmatch0 : matchAt E.data = some E.data := whole_match_at_head E.data hEl
  have hfm : firstEmailMatch (N ++ " " ++ E) = some E := by
    unfold firstEmailMatch
    rw [hdata, firstMatchAux_append_space N.data E.data hNl, hEl]
    simp [strMk_data]
  have hspace : (N ++ " ").data = N.data ++ [' '] := by
    rw [strData_append]
  have hrf : removeFirstStr (N ++ " " ++ E) E = N ++ " " := by
    unfold removeFirstStr
    rw [hdata, removeFirst_name_email N.data E.data hNl hmatch0, ← hspace, strMk_data]
  have htrim2 : jsTrim (N ++ " ") = N := by
    unfold jsTrim
    rw [hspace, trimList_append_space]
    exact htrim
  have hne : ¬ N = "" := by
    intro h0
    rw [h0] at hlen
    simp at hlen
  unfold extract
  rw [hfm]
  simp only [hrf, htrim2, List.take_nil, widen, hsep, ite_self, if_neg hne]
  rw [htrim, if_neg hne]

/-- Witness for C1 at a concrete name and email. -/
theorem C1_witness :
    validEmail "rahul@example.com" ∧ emailFree "Rahul Verma" ∧
    extract ("Rahul Verma" ++ " " ++ "rahul@example.com") [] =
      some ("Rahul Verma", jsToLower "rahul@example.com") :=
  ⟨by unfold validEmail; decide, by unfold emailFree; decide,
    C1_extract_name_space_email "Rahul Verma" "rahul@example.com"
      (by unfold validEmail; decide) (by unfold emailFree; decide)
      (by decide) (by decide) (by decide)⟩

/-- C2: the ancestor-widening walk visits at most the first three
ancestor fragments; an ancestor is considered only when its text
contains the (lower-cased) matched email; a considered ancestor's text
with the matched email removed and trimmed becomes the new best name
exactly when it is strictly longer than the current best; the walk
stops early once the adopted name is longer than 2 characters; and on
the concrete scenario — leaf text exactly `rahul@example.com`, parent
text `Rahul Verma: rahul@example.com` — the extractor returns the name
`Rahul Verma` with the separator stripped. -/
theorem C2_ancestor_widening :
    (∀ t a b c rest, extract t (a :: b :: c :: rest) = extract t [a, b, c]) ∧
    (∀ e m nr a rest, containsStr a e = false →
      widen e m nr (a :: rest) = widen e m nr rest) ∧
    (∀ e m nr a rest, containsStr a e = true →
      ¬ nr.length < (jsTrim (removeFirstStr a m)).length →
      widen e m nr (a :: rest) = widen e m nr rest) ∧
    (∀ e m nr a rest, containsStr a e = true →
      nr.length < (jsTrim (removeFirstStr a m)).length →
      2 < (jsTrim (removeFirstStr a m)).length →
      widen e m nr (a :: rest) = jsTrim (removeFirstStr a m)) ∧
    (∀ e m nr a rest, containsStr a e = true →
      nr.length < (jsTrim (removeFirstStr a m)).length →
      ¬ 2 < (jsTrim (removeFirstStr a m)).length →
      widen e m nr (a :: rest) = widen e m (jsTrim (removeFirstStr a m)) rest) ∧
    extract "rahul@example.com" ["Rahul Verma: rahul@example.com"] =
      some ("Rahul Verma", "rahul@example.com") := by
  refine ⟨?_, ?_, ?_, ?_, ?_, by decide⟩
  · intro t a b c rest
    unfold extract
    cases firstEmailMatch t with
    | none => rfl
    | some m => simp [List.take]
  · intro e m nr a rest h
    simp [widen, h]
  · intro e m nr a rest h hlt
    simp [widen, h, hlt]
  · intro e m nr a rest h hlt hbig
    simp [widen, h, hlt, hbig]
  · intro e m nr a rest h hlt hbig
    simp [widen, h, hlt, hbig]

/-- Witness for C2: a skipped ancestor (no email occurrence) at
concrete values. -/
theorem C2_witness :
    containsStr "zz" "q" = false ∧ widen "q" "m" "ab" ["zz"] = widen "q" "m" "ab" [] :=
  ⟨by decide, C2_ancestor_widening.2.1 "q" "m" "ab" "zz" [] (by decide)⟩

/-- C3 counterexample: `recordAttendance` called with the upper-case
email `A@B.CO` stores the record under the key `A@B.CO` unchanged, not
under the lower-cased key `a@b.co` as the claim demands. -/
theorem C3_counterexample :
    mapGet (recordAttendance "N" "A@B.CO" dtJan7 emptyState).attendanceMap
      (jsToLower "A@B.CO") = none ∧
    mapGet (recordAttendance "N" "A@B.CO" dtJan7 emptyState).attendanceMap "A@B.CO" =
      some ⟨"N", "A@B.CO", "09:00 AM", "07/01/2026", 1767778800000⟩ := by
  constructor
  · decide
  · decide

/-- C3 (amended): the ledger upsert does not normalize; it stores the
email argument unchanged as both the map key and the record's email
field.  Lower-casing happens in the extractor, which always hands the
lower-cased matched substring to the upsert. -/
theorem C3_upsert_stores_argument :
    (∀ (name email : String) (now : DateTime) (st : GmeetState),
      mapGet (recordAttendance name email now st).attendanceMap email =
        some ⟨name, email, formatTimeLocale now, formatDate now, now.epochMs⟩) ∧
    (∀ (text : String) (ancs : List String) (n e : String),
      extract text ancs = some (n, e) →
      ∃ m, firstEmailMatch text = some m ∧ e = jsToLower m) := by
  constructor
  · intro name email now st
    unfold recordAttendance
    exact mapGet_mapSet_self st.attendanceMap email _
  · intro text ancs n e h
    unfold extract at h
    cases hm : firstEmailMatch text with
    | none => rw [hm] at h; exact absurd h (by simp)
    | some m =>
      rw [hm] at h
      simp only [Option.some.injEq, Prod.mk.injEq] at h
      exact ⟨m, rfl, h.2.symm⟩

/-- Witness for C3 (amended), at a concrete extraction. -/
theorem C3_witness :
    ∃ m, firstEmailMatch "Rahul Verma rahul@example.com" = some m ∧
      "rahul@example.com" = jsToLower m :=
  C3_upsert_stores_argument.2 "Rahul Verma rahul@example.com" [] "Rahul Verma"
    "rahul@example.com" (by decide)

/-- C4 counterexample: a record whose email contains a double quote is
rendered with the quote kept verbatim inside the quoted email field —
the internal quote is not doubled, contradicting the claim (which
demands CSV escaping for the email field as well). -/
theorem C4_counterexample :
    (generateCSV none dtJan7
        (recordAttendance "O\"Brien" "a\"b@c.co" dtJan7 emptyState)).csvContent =
      "Name,Email,Time,Date\n\"O\"\"Brien\",\"a\"b@c.co\",09:00 AM,07/01/2026" ∧
    (generateCSV none dtJan7
        (recordAttendance "O\"Brien" "a\"b@c.co" dtJan7 emptyState)).csvContent ≠
      "Name,Email,Time,Date\n\"O\"\"Brien\",\"a\"\"b@c.co\",09:00 AM,07/01/2026" := by
  constructor
  · decide
  · decide

/-- C4 (amended): in every CSV rendering the name field is wrapped in
double quotes with internal double quotes doubled, the email field is
wrapped in double quotes with its characters kept verbatim (no
doubling), and the time and date fields are unquoted; in particular
the name `O"Brien` renders as `"O""Brien"`. -/
theorem C4_csv_escaping :
    (∀ (pn : Option String) (now : DateTime) (st : GmeetState),
      (generateCSV pn now st).csvContent =
        String.intercalate "\n" ("Name,Email,Time,Date" ::
          st.attendanceMap.map (fun p =>
            "\"" ++ escapeQuotes p.2.name ++ "\"" ++ "," ++ "\"" ++ p.2.email ++ "\"" ++ "," ++
              p.2.time ++ "," ++ p.2.date))) ∧
    escapeQuotes "O\"Brien" = "O\"\"Brien" := by
  refine ⟨?_, by decide⟩
  intro pn now st
  have hrow : ∀ p : String × AttendanceRecord,
      String.intercalate ","
          ["\"" ++ escapeQuotes p.2.name ++ "\"", "\"" ++ p.2.email ++ "\"", p.2.time, p.2.date] =
        "\"" ++ escapeQuotes p.2.name ++ "\"" ++ "," ++ ("\"" ++ p.2.email ++ "\"") ++ "," ++
          p.2.time ++ "," ++ p.2.date :=
    fun p => rfl
  unfold generateCSV
  rw [show String.intercalate "," ["Name", "Email", "Time", "Date"] = "Name,Email,Time,Date"
    from by decide]
  simp only [hrow]
  simp only [String.append_assoc]

/-- C5 counterexample: two upserts whose emails differ only in case
(and so normalize to the same key) leave two records in the ledger,
and the first record survives untouched — not the single
last-write-wins record the claim demands. -/
theorem C5_counterexample :
    jsToLower "A@B.CO" = jsToLower "a@b.co" ∧
    (recordAttendance "N2" "a@b.co" dtJan7b
        (recordAttendance "N1" "A@B.CO" dtJan7 emptyState)).attendanceMap.length = 2 ∧
    mapGet (recordAttendance "N2" "a@b.co" dtJan7b
        (recordAttendance "N1" "A@B.CO" dtJan7 emptyState)).attendanceMap "A@B.CO" =
      some ⟨"N1", "A@B.CO", "09:00 AM", "07/01/2026", 1767778800000⟩ := by
  refine ⟨by decide, by decide, by decide⟩

/-- C5 (amended): the ledger is keyed by the literal email string (the
extractor lower-cases before upsert): two upserts with the same email
string leave exactly one record under that key, with the second name
and time/date derived from the second clock reading, and an upsert
never removes any existing record. -/
theorem C5_dedup_last_write_wins :
    (∀ (st : GmeetState) (n1 n2 e : String) (t1 t2 : DateTime),
      countKey st.attendanceMap e ≤ 1 →
      countKey (recordAttendance n2 e t2 (recordAttendance n1 e t1 st)).attendanceMap e = 1 ∧
      mapGet (recordAttendance n2 e t2 (recordAttendance n1 e t1 st)).attendanceMap e =
        some ⟨n2, e, formatTimeLocale t2, formatDate t2, t2.epochMs⟩) ∧
    (∀ (st : GmeetState) (n e : String) (t : DateTime) (e' : String),
      (mapGet st.attendanceMap e').isSome = true →
      (mapGet (recordAttendance n e t st).attendanceMap e').isSome = true) := by
  constructor
  · intro st n1 n2 e t1 t2 h
    have h1 : countKey (mapSet st.attendanceMap e
        ⟨n1, e, formatTimeLocale t1, formatDate t1, t1.epochMs⟩) e = 1 :=
      countKey_mapSet_self _ _ _ h
    constructor
    · unfold recordAttendance
      exact countKey_mapSet_self _ _ _ (by simp [h1])
    · unfold recordAttendance
      exact mapGet_mapSet_self _ _ _
  · intro st n e t e' h
    unfold recordAttendance
    exact mapGet_mapSet_isSome _ _ _ _ h

/-- Witness for C5 (amended) at concrete inputs. -/
theorem C5_witness :
    countKey (recordAttendance "N2" "a@b.co" dtJan7b
        (recordAttendance "N1" "a@b.co" dtJan7 emptyState)).attendanceMap "a@b.co" = 1 ∧
    mapGet (recordAttendance "N2" "a@b.co" dtJan7b
        (recordAttendance "N1" "a@b.co" dtJan7 emptyState)).attendanceMap "a@b.co" =
      some ⟨"N2", "a@b.co", formatTimeLocale dtJan7b, formatDate dtJan7b, dtJan7b.epochMs⟩ :=
  C5_dedup_last_write_wins.1 emptyState "N1" "N2" "a@b.co" dtJan7 dtJan7b (by decide)

/-- C6: from every prior state, a reset yields a snapshot with
`count = 0` and `isRunning = false`, and clears the attendance map,
the session name and the session start timestamp. -/
theorem C6_reset_clears (st : GmeetState) :
    (restartAttendance st).2.count = 0 ∧
    (restartAttendance st).2.isRunning = false ∧
    (restartAttendance st).1.attendanceMap = [] ∧
    (restartAttendance st).1.meetingName = "" ∧
    (restartAttendance st).1.startTimestamp = none ∧
    (restartAttendance st).1.isRunning = false := by
  simp [restartAttendance, stopAttendance, getStatus]

/-- C7: start is idempotent — a start issued while already running
returns the current snapshot and leaves the state unchanged, and two
consecutive starts without an intervening stop do not reset the
session start timestamp. -/
theorem C7_start_idempotent :
    (∀ (st : GmeetState) (name : Option String) (nowMs : Nat), st.isRunning = true →
      startAttendance name nowMs st = (st, getStatus st)) ∧
    (∀ (st : GmeetState) (n1 n2 : Option String) (t1 t2 : Nat),
      startAttendance n2 t2 (startAttendance n1 t1 st).1 =
        ((startAttendance n1 t1 st).1, getStatus (startAttendance n1 t1 st).1) ∧
      (startAttendance n2 t2 (startAttendance n1 t1 st).1).1.startTimestamp =
        (startAttendance n1 t1 st).1.startTimestamp) := by
  constructor
  · exact fun st name nowMs h => start_of_running name nowMs st h
  · intro st n1 n2 t1 t2
    have h := start_of_running n2 t2 (startAttendance n1 t1 st).1 (start_isRunning n1 t1 st)
    exact ⟨h, by rw [h]⟩

/-- Witness for C7 at a concrete running state. -/
theorem C7_witness :
    startAttendance none 7 ⟨[], true, some 3, "m"⟩ =
      (⟨[], true, some 3, "m"⟩, getStatus ⟨[], true, some 3, "m"⟩) :=
  C7_start_idempotent.1 ⟨[], true, some 3, "m"⟩ none 7 rfl

/-- C8: the export filename is the optional sanitized session name
(every character outside `[A-Za-z0-9-_ ]` replaced by an underscore)
followed by an underscore, then `DD-MM-YYYY_HH-MM-AMPM` derived from
the current wall-clock reading, then `.csv`; the name part is absent
when no session name is available; and the filename does not depend on
the session start timestamp. -/
theorem C8_filename_format :
    (∀ (pn : Option String) (now : DateTime) (st : GmeetState),
      (generateCSV pn now st).filename = claimFilename (claimSessionName pn st) now) ∧
    (∀ (pn : Option String) (now : DateTime) (st : GmeetState) (ts : Option Nat),
      (generateCSV pn now { st with startTimestamp := ts }).filename =
        (generateCSV pn now st).filename) := by
  constructor
  · intro pn now st
    unfold generateCSV claimFilename claimSessionName sanitizeName
    simp only [String.append_assoc]
  · intro pn now st ts
    rfl

/-- C9: a text in which the email pattern finds no match yields no
candidate, for every ancestor list; the extractor is a total function,
so this degrades to "nothing" rather than an error. -/
theorem C9_no_email_returns_nothing (T : String) (ancs : List String)
    (h : firstEmailMatch T = none) : extract T ancs = none := by
  unfold extract
  rw [h]

/-- Witness for C9 on a concrete email-free text. -/
theorem C9_witness :
    firstEmailMatch "hello world, no address here" = none ∧
    extract "hello world, no address here" ["x@y.org"] = none :=
  ⟨by decide, C9_no_email_returns_nothing "hello world, no address here" ["x@y.org"] (by decide)⟩

/-- C10: on a ledger with no records, the CSV content is exactly the
header line `Name,Email,Time,Date`, with no data rows and no trailing
newline, for every session-name argument. -/
theorem C10_empty_ledger_header_only (isR : Bool) (ts : Option Nat) (mn : String)
    (pn : Option String) (now : DateTime) :
    (generateCSV pn now ⟨[], isR, ts, mn⟩).csvContent = "Name,Email,Time,Date" := by
  unfold generateCSV
  simp only [List.map_nil]
  decide
